import Mathlib

/-! Verification of the open-codex-gui backend.

A shallow embedding of the backend's content sequencing, agent loop,
streaming/reconnection layer and sandbox code (Python, under
`src/backend/app`), with theorems checking the natural-language
specification's claims against it.  Python strings are modelled as Lean
`String`/`List Char`, machine integers as `Nat`, fallible operations as
`Option`/`Except`, and the cooperative (asyncio) control flow as explicit
traces of events and actions. -/

namespace OpenCodexGui

/-! ### Content sequence numbers
Embeds `ChatWebSocketHandler._get_next_sequence_number` and
`ChatWebSocketHandler._create_content_block`
(`src/backend/app/api/websocket/chat_handler.py`). -/

/-- State of sequence assignment for one conversation: the sequence numbers
of the persisted content blocks in creation order, and the handler's
in-memory cache (`_sequence_cache[session_id]`), `none` before the first
lazy database lookup. -/
structure SeqState where
  persisted : List Nat
  cache : Option Nat
deriving Repr, DecidableEq

/-- The operations that touch sequence assignment for one conversation:
`create` persists one content block; `reconnect` starts a new
`ChatWebSocketHandler` whose `_sequence_cache` is empty; `attach` joins a
running stream and creates no blocks. -/
inductive SeqOp where
  | create
  | reconnect
  | attach
deriving Repr, DecidableEq

/-- The database query `select max(sequence_number)` combined with the
handler's `(max_seq or 0)`: the maximum persisted sequence number, `0` when
nothing is persisted. -/
def maxSeq (l : List Nat) : Nat := l.foldl max 0

/-- `_get_next_sequence_number`: lazily initialize the cache from the
maximum persisted sequence number, then increment and return it. -/
def nextSeq (s : SeqState) : Nat × SeqState :=
  let base := match s.cache with
    | none => maxSeq s.persisted
    | some v => v
  (base + 1, { s with cache := some (base + 1) })

/-- One step of the sequencing state machine: `create` runs
`_create_content_block` (which obtains the next sequence number and
persists a block carrying it), `reconnect` discards the in-memory cache,
`attach` changes nothing. -/
def seqStep (s : SeqState) : SeqOp → SeqState
  | .create => { persisted := s.persisted ++ [(nextSeq s).1], cache := (nextSeq s).2.cache }
  | .reconnect => { persisted := s.persisted, cache := none }
  | .attach => s

/-- Run a whole trace of operations from the initial state (no persisted
blocks, no cache). -/
def execSeq (ops : List SeqOp) : SeqState :=
  ops.foldl seqStep ⟨[], none⟩

/-! ### The ReAct agent loop
Embeds `ReActAgent.run` (`src/backend/app/core/agent/executor.py`).  The
language model's streamed output and the outcome of each
`validate_and_execute` call are the loop's environment; they enter the
embedding as explicit per-iteration inputs. -/

/-- The uniform result of a tool call.  The class lives in
`app/core/agent/tools/base.py`, which is not part of the repository
snapshot; modelled from the spec: success flag, output text, optional error
text, and the distinguished validation-error flag that `executor.py`
branches on (`result.is_validation_error`). -/
structure ToolResult where
  success : Bool
  output : String
  error : Option String
  is_validation_error : Bool
deriving Repr, DecidableEq

/-- The events `ReActAgent.run` yields (the dicts with a `type` key). -/
inductive AgentEvent where
  | cancelled (content : String) (partialText : Option String)
  | chunk (content : String)
  | action (tool : String) (args : String)
  | observation (content : String) (success : Bool)
  | error (content : String)
  | finalAnswer (content : String)
deriving Repr, DecidableEq

/-- One message of the model context (`messages` in `ReActAgent.run`):
role, content, and the function call an assistant message may carry.
Tool-call arguments stay the raw argument string; `json.loads` only
re-parses it and none of the checked claims depends on its structure. -/
structure Msg where
  role : String
  content : String
  fcall : Option (String × String)
deriving Repr, DecidableEq

/-- One chunk of the model stream inside an iteration, as
`generate_stream` delivers it: a text delta, a function-call delta
(index, optional name, argument fragment), or the point at which the
per-chunk check sees the cancellation event set. -/
inductive StreamItem where
  | text (s : String)
  | call (index : Nat) (name : Option String) (args : String)
  | cancelSignal
deriving Repr, DecidableEq

/-- The environment's contribution to one loop iteration: whether the
cancellation event is set at the top of the iteration, the model stream,
the registered tool names (`ToolRegistry.has_tool`), and the `ToolResult`
that `validate_and_execute` returns if a tool is executed. -/
structure IterInput where
  cancelBefore : Bool
  stream : List StreamItem
  knownTools : List String
  result : ToolResult
deriving Repr, DecidableEq

/-- The executor state threaded across iterations: the model context, the
validation retry counter and the tool-call history. -/
structure AgState where
  messages : List Msg
  validation_retry_count : Nat
  tool_call_history : List String
deriving Repr, DecidableEq

/-- `ReActAgent.__init__` defaults: `max_iterations=10`,
`max_validation_retries=3`, `max_same_tool_retries=5`. -/
structure AgentConfig where
  max_iterations : Nat := 10
  max_validation_retries : Nat := 3
  max_same_tool_retries : Nat := 5
deriving Repr, DecidableEq

/-- `tool_calls[index]` assembly: create the entry on first sight of an
index, overwrite the name only when the delta carries a non-null one,
append argument fragments. -/
def updateCalls (calls : List (Nat × Option String × String)) (i : Nat)
    (nm : Option String) (args : String) : List (Nat × Option String × String) :=
  match calls with
  | [] => [(i, nm, args)]
  | (j, n0, a0) :: rest =>
      if i = j then
        (j, (match nm with | some s => some s | none => n0), a0 ++ args) :: rest
      else
        (j, n0, a0) :: updateCalls rest i nm args

/-- What the streaming phase of one iteration produces: either the
mid-stream cancellation return, or the accumulated `full_response`, the
assembled `tool_calls` and the chunk events yielded along the way. -/
inductive StreamOut where
  | cancelledMid (events : List AgentEvent)
  | done (full : String) (calls : List (Nat × Option String × String))
      (events : List AgentEvent)
deriving Repr, DecidableEq

/-- The `async for chunk in self.llm.generate_stream(...)` loop: text
chunks accumulate into `full_response` and are yielded immediately;
function-call deltas update `tool_calls`; seeing the cancellation event
yields a `cancelled` event carrying the partial text and returns. -/
def processStream (items : List StreamItem) (full : String)
    (calls : List (Nat × Option String × String))
    (events : List AgentEvent) : StreamOut :=
  match items with
  | [] => .done full calls events
  | .text s :: rest =>
      processStream rest (full ++ s) calls (events ++ [.chunk s])
  | .call i nm a :: rest =>
      processStream rest full (updateCalls calls i nm a) events
  | .cancelSignal :: _ =>
      .cancelledMid
        (events ++ [.cancelled "Response cancelled by user" (some full)])

/-- `min(tool_calls.keys())`, `none` when no call arrived. -/
def minKey : List (Nat × Option String × String) → Option Nat
  | [] => none
  | (i, _, _) :: rest =>
      match minKey rest with
      | none => some i
      | some j => some (min i j)

/-- `tool_calls[first_index]`: the stored (name, arguments) for an index. -/
def lookupCall (calls : List (Nat × Option String × String)) (i : Nat) :
    Option String × String :=
  match calls with
  | [] => (none, "")
  | (j, n, a) :: rest => if i = j then (n, a) else lookupCall rest i

/-- Python's `history[-k:]` slice: the last `k` entries, the whole list
when `k = 0` (a Python slicing quirk the embedding keeps). -/
def lastSlice (l : List String) (k : Nat) : List String :=
  if k = 0 then l else l.drop (l.length - k)

/-- `len(set(recent_calls)) == 1`: nonempty and all entries equal. -/
def allSame : List String → Bool
  | [] => false
  | x :: rest => rest.all (fun y => y = x)

/-- The corrective context message for a validation failure below the
retry limit. -/
def validationMsg (name : String) (c m : Nat) (err : String) : String :=
  "Tool '" ++ name ++ "' validation failed (attempt " ++ toString c ++ "/" ++
    toString m ++ "): " ++ err

/-- The escalation message appended once the validation retry limit is
reached. -/
def escalationMsg (name : String) (c : Nat) (err : String) : String :=
  "Tool '" ++ name ++ "' validation failed: " ++ err ++
    "\n\nYou've attempted this " ++ toString c ++
    " times with validation errors. Consider:\n" ++
    "1. Using a different tool to accomplish the task\n" ++
    "2. Breaking the task into smaller steps\n" ++
    "3. Carefully reviewing the tool's parameter requirements"

/-- The loop-detected corrective message. -/
def loopMsg (name : String) (m : Nat) : String :=
  "Error: Tool '" ++ name ++ "' has been called " ++ toString m ++
    " times consecutively without success. This suggests the current " ++
    "approach isn't working. Please try a different tool or approach " ++
    "to accomplish the task."

/-- `ToolResult.error` seen through Python truthiness (`if result.error:`). -/
def errText (r : ToolResult) : Option String :=
  match r.error with
  | some e => if e = "" then none else some e
  | none => none

/-- `ToolResult.error` as the f-strings interpolate it (`str(None)` is
`"None"`). -/
def errStr (r : ToolResult) : String :=
  match r.error with
  | some e => e
  | none => "None"

/-- The observation string built from a tool result: the output on
success, otherwise the error and output joined (or a fixed fallback). -/
def mkObservation (r : ToolResult) : String :=
  if r.success then r.output
  else
    let parts :=
      (match errText r with
        | some e => ["Error: " ++ e]
        | none => []) ++
      (if r.output = "" then [] else [r.output])
    if parts = [] then "Error: Unknown failure"
    else String.intercalate "\n" parts

/-- Why an iteration returned early (the `return` statements of `run`). -/
inductive StopReason where
  | cancelledEarly
  | cancelledMidStream
  | finalText
  | noResponse
deriving Repr, DecidableEq

/-- The outcome of one iteration: return from the generator, or yield
events and continue with a new state. -/
inductive StepOut where
  | halt (events : List AgentEvent) (reason : StopReason)
  | next (events : List AgentEvent) (st : AgState)
deriving Repr, DecidableEq

/-- One iteration of `ReActAgent.run`'s `for iteration in
range(self.max_iterations)` body. -/
def stepIter (cfg : AgentConfig) (st : AgState) (inp : IterInput) : StepOut :=
  if inp.cancelBefore then
    .halt [.cancelled "Response cancelled by user" none] .cancelledEarly
  else
    match processStream inp.stream "" [] [] with
    | .cancelledMid events => .halt events .cancelledMidStream
    | .done full calls events =>
        match minKey calls with
        | some i =>
            let nc := lookupCall calls i
            match nc.1 with
            | some name =>
                if name ≠ "" ∧ inp.knownTools.contains name then
                  let st1 : AgState := { st with messages := st.messages ++
                    [⟨"assistant", full, some (name, nc.2)⟩] }
                  let r := inp.result
                  if r.is_validation_error then
                    let c := st1.validation_retry_count + 1
                    if cfg.max_validation_retries ≤ c then
                      .next events { st1 with
                        messages := st1.messages ++ [⟨"user",
                          escalationMsg name c (errStr r), none⟩],
                        validation_retry_count := 0 }
                    else
                      .next events { st1 with
                        messages := st1.messages ++ [⟨"user",
                          validationMsg name c cfg.max_validation_retries
                            (errStr r), none⟩],
                        validation_retry_count := c }
                  else
                    let st2 : AgState := { st1 with
                      validation_retry_count := 0,
                      tool_call_history := st1.tool_call_history ++ [name] }
                    let recent := lastSlice st2.tool_call_history
                      cfg.max_same_tool_retries
                    if recent.length = cfg.max_same_tool_retries ∧
                        allSame recent = true then
                      .next events { st2 with
                        messages := st2.messages ++ [⟨"user",
                          loopMsg name cfg.max_same_tool_retries, none⟩],
                        tool_call_history := [] }
                    else
                      let obs := mkObservation r
                      .next (events ++
                        [.action name nc.2, .observation obs r.success])
                        { st2 with messages := st2.messages ++ [⟨"user",
                          "Tool '" ++ name ++ "' returned: " ++ obs, none⟩] }
                else
                  if full ≠ "" then .halt events .finalText
                  else .halt
                    (events ++ [.error "Agent did not provide a response"])
                    .noResponse
            | none =>
                if full ≠ "" then .halt events .finalText
                else .halt
                  (events ++ [.error "Agent did not provide a response"])
                  .noResponse
        | none =>
            if full ≠ "" then .halt events .finalText
            else .halt
              (events ++ [.error "Agent did not provide a response"])
              .noResponse

/-- The final-answer message yielded after the `for` loop exhausts its
iteration budget. -/
def maxIterMsg : String :=
  "Task incomplete: reached maximum iterations. Please try breaking " ++
    "down the task into smaller steps."

/-- The outcome of a whole `run`: all yielded events, how the generator
returned (`none` = it fell out of the `for` loop), and how many
iterations were entered. -/
structure RunResult where
  events : List AgentEvent
  stopped : Option StopReason
  itersEntered : Nat
deriving Repr, DecidableEq

/-- The `for iteration in range(self.max_iterations)` loop, driven by the
per-iteration environment `script`. -/
def runLoop (cfg : AgentConfig) (script : Nat → IterInput) (st : AgState)
    (i : Nat) (remaining : Nat) (acc : List AgentEvent) : RunResult :=
  match remaining with
  | 0 => { events := acc ++ [.finalAnswer maxIterMsg], stopped := none,
           itersEntered := i }
  | r + 1 =>
      match stepIter cfg st (script i) with
      | .halt events reason =>
          { events := acc ++ events, stopped := some reason,
            itersEntered := i + 1 }
      | .next events st' => runLoop cfg script st' (i + 1) r (acc ++ events)

/-- `ReActAgent.run` as a whole, from a given starting context. -/
def agentRun (cfg : AgentConfig) (script : Nat → IterInput)
    (st0 : AgState) : RunResult :=
  runLoop cfg script st0 0 cfg.max_iterations []

/-- A script on which every iteration continues (a known tool keeps
failing validation), exercising the max-iterations exit. -/
def validationLoopInput : IterInput :=
  { cancelBefore := false
    stream := [.call 0 (some "bash") "{}"]
    knownTools := ["bash"]
    result := { success := false, output := "",
                error := some "missing required parameter: command",
                is_validation_error := true } }

/-! ### The WebSocket agent-response handler
Embeds the event loop of
`ChatWebSocketHandler._handle_agent_response_impl`
(`src/backend/app/api/websocket/chat_handler.py`): which frames it sends,
which content blocks it creates, and when it commits the assistant
block's accumulated text.  Database ids are abstracted to the one
assistant block id `bid`; send failures on a closed socket are caught by
the source and change nothing observable, so the trace records the
attempted sends. -/

/-- A frame sent to the client over the WebSocket. -/
inductive Frame where
  | assistantTextStart (bid : Nat)
  | chunkFrame (content : String) (bid : Nat)
  | cancelledFrame (content : String) (partialText : Option String)
  | toolCallBlockFrame (tool : String) (args : String)
  | toolResultBlockFrame (tool : String) (result : String) (success : Bool)
  | errorFrame (content : String)
  | assistantTextEnd (bid : Nat) (hasError : Bool) (cancelled : Bool)
deriving Repr, DecidableEq

/-- One observable action of the handler: a send, a content-block
creation (`_create_content_block`, which commits), the commit updating a
tool-call block's status, a batched commit of the assistant text, the
final commit, or the registry completion mark. -/
inductive HAction where
  | createAssistantBlock (bid : Nat)
  | createToolCallBlock (tool : String) (args : String)
  | createToolResultBlock (tool : String) (result : String) (success : Bool)
  | updateToolCallStatus (status : String)
  | commitContent (text : String)
  | finalCommit (text : String) (hasError : Bool) (cancelled : Bool)
  | send (f : Frame)
  | markCompleted (status : String)
deriving Repr, DecidableEq

/-- The handler's loop state: accumulated assistant text, the error and
cancellation flags, chunks since the last batched commit, and the
tool-call block awaiting its result. -/
structure HState where
  content : String
  hasError : Bool
  cancelled : Bool
  chunksSinceCommit : Nat
  currentTool : Option String
deriving Repr, DecidableEq

/-- `CHUNK_COMMIT_INTERVAL = 50`. -/
def chunkCommitInterval : Nat := 50

/-- Processing of one agent event by the handler loop: the actions taken,
the new state, and whether the loop `break`s. -/
def handlerStep (bid : Nat) (st : HState) : AgentEvent →
    List HAction × HState × Bool
  | .cancelled c p =>
      ([.send (.cancelledFrame c p)], { st with cancelled := true }, true)
  | .action t a =>
      ([.createToolCallBlock t a, .send (.toolCallBlockFrame t a)],
        { st with currentTool := some t }, false)
  | .observation obs succ =>
      let name := st.currentTool.getD "unknown"
      let statusActs : List HAction :=
        (match st.currentTool with
          | some _ =>
              [.updateToolCallStatus (if succ then "complete" else "error")]
          | none => [])
      (statusActs ++ [.createToolResultBlock name obs succ,
          .send (.toolResultBlockFrame name obs succ)],
        { st with
          currentTool := none
          chunksSinceCommit :=
            (match st.currentTool with
              | some _ => 0
              | none => st.chunksSinceCommit) }, false)
  | .chunk c =>
      let content := st.content ++ c
      let n := st.chunksSinceCommit + 1
      if chunkCommitInterval ≤ n then
        ([.send (.chunkFrame c bid), .commitContent content],
          { st with content := content, chunksSinceCommit := 0 }, false)
      else
        ([.send (.chunkFrame c bid)],
          { st with content := content, chunksSinceCommit := n }, false)
  | .finalAnswer a =>
      let content := st.content ++ a
      let n := st.chunksSinceCommit + 1
      if chunkCommitInterval ≤ n then
        ([.send (.chunkFrame a bid), .commitContent content],
          { st with content := content, chunksSinceCommit := 0 }, false)
      else
        ([.send (.chunkFrame a bid)],
          { st with content := content, chunksSinceCommit := n }, false)
  | .error m =>
      ([.send (.errorFrame m)], { st with hasError := true }, true)

/-- The `async for event in agent.run(...)` loop. -/
def handlerLoop (bid : Nat) (st : HState) :
    List AgentEvent → List HAction × HState
  | [] => ([], st)
  | e :: rest =>
      match handlerStep bid st e with
      | (acts, st', true) => (acts, st')
      | (acts, st', false) =>
          match handlerLoop bid st' rest with
          | (acts2, st2) => (acts ++ acts2, st2)

/-- The task-registry status the handler reports at the end. -/
def finalStatus (st : HState) : String :=
  if st.cancelled then "cancelled"
  else if st.hasError then "error" else "completed"

/-- `_handle_agent_response_impl` as an action trace: create the (empty,
streaming) assistant block, send `assistant_text_start`, run the event
loop, commit the final content and metadata, send `assistant_text_end`,
mark the task completed. -/
def handlerTrace (bid : Nat) (events : List AgentEvent) : List HAction :=
  match handlerLoop bid ⟨"", false, false, 0, none⟩ events with
  | (acts, stF) =>
      [.createAssistantBlock bid, .send (.assistantTextStart bid)] ++
        acts ++
        [.finalCommit stF.content stF.hasError stF.cancelled,
          .send (.assistantTextEnd bid stF.hasError stF.cancelled),
          .markCompleted (finalStatus stF)]

/-- Events at which the handler loop `break`s. -/
def isBreakEvent : AgentEvent → Bool
  | .cancelled _ _ => true
  | .error _ => true
  | _ => false

/-- The text payload an event contributes to the assistant block. -/
def textPayload : AgentEvent → String
  | .chunk c => c
  | .finalAnswer a => a
  | _ => ""

/-- The text streamed before the first break event: exactly what the
assistant block accumulates. -/
def streamedText : List AgentEvent → String
  | [] => ""
  | e :: rest => if isBreakEvent e then "" else textPayload e ++ streamedText rest

/-- Whether the first break event of an event list is a cancellation. -/
def firstBreakIsCancel : List AgentEvent → Bool
  | [] => false
  | .cancelled _ _ :: _ => true
  | .error _ :: _ => false
  | _ :: rest => firstBreakIsCancel rest

/-- Whether the first break event of an event list is an error. -/
def firstBreakIsError : List AgentEvent → Bool
  | [] => false
  | .cancelled _ _ :: _ => false
  | .error _ :: _ => true
  | _ :: rest => firstBreakIsError rest

/-- The events carried by a `StreamOut`. -/
def streamEvents : StreamOut → List AgentEvent
  | .done _ _ evs => evs
  | .cancelledMid evs => evs

/-- Whether an event is a `chunk` or a `cancelled` event (the only kinds
the streaming phase itself yields). -/
def isChunkOrCancelled : AgentEvent → Bool
  | .chunk _ => true
  | .cancelled _ _ => true
  | _ => false

/-- Whether a handler action persists a `tool_call` or `tool_result`
content block. -/
def createsToolBlock : HAction → Bool
  | .createToolCallBlock _ _ => true
  | .createToolResultBlock _ _ _ => true
  | _ => false

/-- Whether a handler action durably writes `t` as the assistant block's
content. -/
def commitsText (t : String) : HAction → Bool
  | .commitContent s => s = t
  | .finalCommit s _ _ => s = t
  | _ => false

/-- Whether a handler action sends the `cancelled` frame. -/
def isCancelFrameSend : HAction → Bool
  | .send (.cancelledFrame _ _) => true
  | _ => false

/-- The spec's cancellation-durability ordering read off a trace: some
durable write of the streamed text `t` happens strictly before the
`cancelled` frame goes out. -/
def persistedBeforeCancelFrame (t : String) (tr : List HAction) : Bool :=
  (tr.takeWhile (fun a => !(isCancelFrameSend a))).any (commitsText t)

/-- A per-iteration input whose known tool executes with an ordinary
execution failure (not a validation error). -/
def loopDetectInput : IterInput :=
  { cancelBefore := false
    stream := [.call 0 (some "bash") "{}"]
    knownTools := ["bash"]
    result := { success := false, output := "",
                error := some "command failed",
                is_validation_error := false } }

/-! ### Reconnection: attaching to an in-flight stream
Embeds `ChatWebSocketHandler._attach_to_existing_stream` together with the
writer side that it watches: the `chunk` branch of
`_handle_agent_response_impl` appending to
`_stream_states[session_id].accumulated_content`, the completion mark
(`task_registry.mark_completed`, a module absent from the snapshot and
modelled from the spec's `markCompleted` contract) and the deletion of the
stream state.  Python strings are `List Char`; the cooperative (asyncio)
scheduler is an explicit interleaving of writer and attacher steps.  The
attach path reads the stream state twice, with an `await` between the
reads: the `stream_sync` payload is built from `accumulated_content`
before `await send_json`, and `last_content_length` is computed from a
fresh read after it — so a writer append in that window is a separate
interleaving, kept distinct here as the `initLastLen` step. -/

/-- The joint state of the writer and one attached connection: the
accumulated content of the stream state, whether that entry still exists,
whether the registry task still counts as running, the bytes the attached
client has received (`stream_sync` payload plus forwarded chunks) and the
attach loop's `last_content_length` — `none` until the post-`await` read
initializes it. -/
structure AttachState where
  accumulated : List Char
  statePresent : Bool
  taskRunning : Bool
  sent : List Char
  lastLen : Option Nat
deriving Repr, DecidableEq

/-- The synchronous part of attaching while the accumulated content is
`acc`: the `stream_sync` frame is built from and carries `acc`;
`last_content_length` is not yet read (the `await send_json` is still
pending). -/
def attachStart (acc : List Char) : AttachState :=
  { accumulated := acc, statePresent := true, taskRunning := true,
    sent := acc, lastLen := none }

/-- One interleaved step: the writer appends a chunk to the stream state;
the writer's completion sequence marks the task terminal and then deletes
the stream state; the attach path initializes `last_content_length` from
a fresh read of the accumulated content (the read after the `await`); or
the attach loop runs one poll of its 30 ms cycle, forwarding the suffix
past `last_content_length` when the content grew. -/
inductive AttachStep where
  | append (s : List Char)
  | markDone
  | clearState
  | initLastLen
  | poll
deriving Repr, DecidableEq

/-- The transition of one interleaved step.  A poll is a no-op before
`last_content_length` exists (the loop has not started), once the task is
no longer running (the `while` condition fails and the loop exits), or
when the stream state is gone or unchanged;  `initLastLen` runs once. -/
def attachStep (st : AttachState) : AttachStep → AttachState
  | .append s =>
      if st.taskRunning then { st with accumulated := st.accumulated ++ s }
      else st
  | .markDone => { st with taskRunning := false }
  | .clearState => { st with statePresent := false }
  | .initLastLen =>
      match st.lastLen with
      | none => { st with lastLen := some st.accumulated.length }
      | some _ => st
  | .poll =>
      match st.lastLen with
      | none => st
      | some len =>
          if st.taskRunning ∧ st.statePresent ∧
              len < st.accumulated.length then
            { st with
              sent := st.sent ++ st.accumulated.drop len
              lastLen := some st.accumulated.length }
          else st

/-- A whole interleaving, run from the attach point. -/
def runAttach (st : AttachState) (steps : List AttachStep) : AttachState :=
  steps.foldl attachStep st

/-- The general attach invariant, true under every interleaving: before
`last_content_length` exists the client holds a prefix of the accumulated
text; afterwards it holds a prefix (the `stream_sync` payload) followed
by one contiguous later segment — the bytes appended between the
`stream_sync` snapshot and the `last_content_length` read fall in the gap
between the two and are never forwarded. -/
def AttachInv (st : AttachState) : Prop :=
  (st.lastLen = none → st.sent <+: st.accumulated) ∧
    ∀ len, st.lastLen = some len →
      len ≤ st.accumulated.length ∧
        ∃ n0 g0, n0 ≤ g0 ∧ g0 ≤ len ∧
          st.sent = st.accumulated.take n0 ++
            (st.accumulated.take len).drop g0

/-- The stronger invariant of runs in which no append interleaves between
the `stream_sync` snapshot and the `last_content_length` read: the client
holds exactly the first `last_content_length` bytes. -/
def AttachStrong (st : AttachState) : Prop :=
  ∃ len, st.lastLen = some len ∧ len ≤ st.accumulated.length ∧
    st.sent = st.accumulated.take len

/-! ### The session registry and the one-generation guard
Embeds `ChatWebSocketHandler.handle_connection`: a new connection whose
registered task is still running attaches instead of starting a
generation, while a `message` frame on a connection already inside the
message loop starts and registers a task unconditionally.  The registry
itself (`app/api/websocket/task_registry.py` is absent from the snapshot)
is modelled from the spec's `registerTask`/`markCompleted` contract: one
record per conversation, overwritten on registration. -/

/-- Per-conversation state: the registered record's status, the number of
live generation tasks, and how many connections sit in the message loop. -/
structure SessState where
  taskStatus : Option String
  running : Nat
  openLoops : Nat
deriving Repr, DecidableEq

/-- The connection-level events: a new WebSocket connection arrives, a
connection in the message loop receives a `message` frame, a generation
task reaches its end and is marked completed. -/
inductive SessEvent where
  | connect
  | message
  | complete
deriving Repr, DecidableEq

/-- `handle_connection` and the registry: a connection arriving while the
registered task is running attaches (and its handler returns without
entering the message loop); otherwise it enters the message loop.  A
`message` frame creates and registers a task with no registry check.  A
completing task marks the record terminal. -/
def sessStep (st : SessState) : SessEvent → SessState
  | .connect =>
      if st.taskStatus = some "running" then st
      else { st with openLoops := st.openLoops + 1 }
  | .message =>
      if 1 ≤ st.openLoops then
        { st with
          running := st.running + 1
          taskStatus := some "running" }
      else st
  | .complete =>
      if 1 ≤ st.running then
        { st with
          running := st.running - 1
          taskStatus := some "completed" }
      else st

/-- A trace of connection events from the empty per-conversation state. -/
def runSess (tr : List SessEvent) : SessState :=
  tr.foldl sessStep ⟨none, 0, 0⟩

/-- The client discipline the one-generation guarantee needs: a `message`
frame is only sent while no generation is running. -/
def disciplined : SessState → List SessEvent → Bool
  | _, [] => true
  | st, e :: rest =>
      (if e = SessEvent.message then st.running == 0 else true) &&
        disciplined (sessStep st e) rest

/-! ### Sandbox file reads
Embeds `SandboxContainer.read_file` (`src/backend/app/core/sandbox/container.py`).
The docker archive extraction is the environment: it either raises (file
missing or unreadable), yields no tar member, or yields the member's raw
bytes.  `bytes.decode("utf-8")`, `base64.b64encode` and
`mimetypes.guess_type` are Python standard library calls, modelled here
strictly (the MIME table restricted to common extensions). -/

/-- What `container.get_archive` plus tar extraction delivered. -/
inductive ReadOutcome where
  | archiveError (msg : String)
  | noMember
  | bytes (bs : List Nat)
deriving Repr, DecidableEq

/-- A UTF-8 continuation byte. -/
def isCont (b : Nat) : Bool := decide (0x80 ≤ b) && decide (b < 0xC0)

/-- Strict UTF-8 decoding as `bytes.decode("utf-8")` performs it:
rejects continuation-byte starts, overlong encodings, surrogates and
code points above U+10FFFF.  The fuel argument (one unit per leading
byte) only makes the recursion structural; `utf8Decode` supplies enough
for the whole input. -/
def utf8DecodeFuel : Nat → List Nat → Option (List Char)
  | _, [] => some []
  | 0, _ :: _ => none
  | f + 1, b :: rest =>
      if b < 0x80 then
        (utf8DecodeFuel f rest).map (fun cs => Char.ofNat b :: cs)
      else if b < 0xC2 then none
      else if b < 0xE0 then
        match rest with
        | b2 :: rest2 =>
            if isCont b2 then
              (utf8DecodeFuel f rest2).map (fun cs =>
                Char.ofNat ((b - 0xC0) * 64 + (b2 - 0x80)) :: cs)
            else none
        | [] => none
      else if b < 0xF0 then
        match rest with
        | b2 :: b3 :: rest3 =>
            if isCont b2 && isCont b3 &&
                (decide (b ≠ 0xE0) || decide (0xA0 ≤ b2)) &&
                (decide (b ≠ 0xED) || decide (b2 < 0xA0)) then
              (utf8DecodeFuel f rest3).map (fun cs =>
                Char.ofNat ((b - 0xE0) * 4096 + (b2 - 0x80) * 64 +
                  (b3 - 0x80)) :: cs)
            else none
        | _ => none
      else if b < 0xF5 then
        match rest with
        | b2 :: b3 :: b4 :: rest4 =>
            if isCont b2 && isCont b3 && isCont b4 &&
                (decide (b ≠ 0xF0) || decide (0x90 ≤ b2)) &&
                (decide (b ≠ 0xF4) || decide (b2 < 0x90)) then
              (utf8DecodeFuel f rest4).map (fun cs =>
                Char.ofNat ((b - 0xF0) * 262144 + (b2 - 0x80) * 4096 +
                  (b3 - 0x80) * 64 + (b4 - 0x80)) :: cs)
            else none
        | _ => none
      else none

/-- `bytes.decode("utf-8")`, total over the input. -/
def utf8Decode (l : List Nat) : Option (List Char) :=
  utf8DecodeFuel l.length l

/-- The 64 base64 digits. -/
def base64Table : List Char :=
  ("ABCDEFGHIJKLMNOPQRSTUVWXYZabcdefghijklmnopqrstuvwxyz" ++
    "0123456789+/").toList

/-- The base64 digit for a 6-bit value. -/
def b64Char (n : Nat) : Char := base64Table.getD n 'A'

/-- `base64.b64encode` with `=` padding. -/
def base64Encode : List Nat → List Char
  | [] => []
  | [a] => [b64Char (a / 4), b64Char (a % 4 * 16), '=', '=']
  | [a, b] => [b64Char (a / 4), b64Char (a % 4 * 16 + b / 16),
      b64Char (b % 16 * 4), '=']
  | a :: b :: c :: rest =>
      b64Char (a / 4) :: b64Char (a % 4 * 16 + b / 16) ::
        b64Char (b % 16 * 4 + c / 64) :: b64Char (c % 64) ::
          base64Encode rest

/-- Python `str.split(sep)` on one character, over `List Char`. -/
def splitOnChar (sep : Char) : List Char → List (List Char)
  | [] => [[]]
  | c :: rest =>
      if c = sep then [] :: splitOnChar sep rest
      else
        match splitOnChar sep rest with
        | [] => [[c]]
        | g :: gs => (c :: g) :: gs

/-- The extension after the last dot of a file's base name, skipping
leading dots as `posixpath.splitext` does (`".bashrc"` has none):
walking left to right, the candidate is the suffix after the most recent
dot that had a non-dot character somewhere before it. -/
def extAfterLastDot : List Char → Bool → Option (List Char) →
    Option (List Char)
  | [], _, acc => acc
  | c :: rest, seenNonDot, acc =>
      if c = '.' then
        if seenNonDot then extAfterLastDot rest seenNonDot (some rest)
        else extAfterLastDot rest seenNonDot acc
      else extAfterLastDot rest true acc

/-- The lowercased extension of a path's last component, if any. -/
def pathExt (path : String) : Option (List Char) :=
  match (splitOnChar '/' path.toList).getLast? with
  | none => none
  | some base =>
      (extAfterLastDot base false none).map (fun e => e.map Char.toLower)

/-- `mimetypes.guess_type` restricted to a table of common extensions
(Python standard library call; the source only needs it to tag binary
data URIs). -/
def guessMime (path : String) : Option String :=
  match pathExt path with
  | none => none
  | some e =>
      if e = "png".toList then some "image/png"
      else if e = "jpg".toList then some "image/jpeg"
      else if e = "jpeg".toList then some "image/jpeg"
      else if e = "gif".toList then some "image/gif"
      else if e = "svg".toList then some "image/svg+xml"
      else if e = "pdf".toList then some "application/pdf"
      else if e = "txt".toList then some "text/plain"
      else if e = "csv".toList then some "text/csv"
      else if e = "json".toList then some "application/json"
      else if e = "html".toList then some "text/html"
      else none

/-- `SandboxContainer.read_file`: an exception from the archive
extraction is re-raised as `Failed to read file: ...` (the outer
`except` clause); a missing tar member returns `None`; raw bytes decode
to text when UTF-8-decodable and otherwise become a base64 data URI
tagged with the guessed MIME type (`application/octet-stream` when the
guess fails). -/
def read_file (container_path : String) (outcome : ReadOutcome) :
    Except String (Option String) :=
  match outcome with
  | .archiveError msg => .error ("Failed to read file: " ++ msg)
  | .noMember => .ok none
  | .bytes bs =>
      match utf8Decode bs with
      | some cs => .ok (some (String.mk cs))
      | none =>
          let mime := (guessMime container_path).getD
            "application/octet-stream"
          .ok (some ("data:" ++ mime ++ ";base64," ++
            String.mk (base64Encode bs)))

instance (ε α : Type) [DecidableEq ε] [DecidableEq α] :
    DecidableEq (Except ε α) := fun a b =>
  match a, b with
  | .ok x, .ok y =>
      if h : x = y then isTrue (by rw [h]) else isFalse (by simp [h])
  | .error x, .error y =>
      if h : x = y then isTrue (by rw [h]) else isFalse (by simp [h])
  | .ok _, .error _ => isFalse (by simp)
  | .error _, .ok _ => isFalse (by simp)

/-! ### Container pool resource limits and security options
Embeds the `docker_client.containers.run(...)` keyword arguments of
`ContainerPoolManager.create_container`
(`src/backend/app/core/sandbox/manager.py`) and `get_security_config`
(`src/backend/app/core/sandbox/security.py`).  A keyword the call does
not pass is `none`: docker then applies its own defaults (full default
capability set, no `no-new-privileges`). -/

/-- The keyword arguments `create_container` passes to
`containers.run`. -/
structure RunKwargs where
  image : String
  detach : Bool
  tty : Bool
  stdin_open : Bool
  network_mode : String
  mem_limit : String
  cpu_quota : Nat
  name : String
  privileged : Option Bool
  cap_drop : Option (List String)
  cap_add : Option (List String)
  security_opt : Option (List String)
  memswap_limit : Option String
deriving Repr, DecidableEq

/-- The `containers.run` call of `create_container`, line for line:
image, `detach/tty/stdin_open=True`, volumes and environment (elided),
`network_mode="bridge"`, `mem_limit="1g"`, `cpu_quota=50000`, the
deterministic name — and no security keyword at all. -/
def createContainerRunKwargs (session_id : String) (image_name : String) :
    RunKwargs :=
  { image := image_name, detach := true, tty := true, stdin_open := true,
    network_mode := "bridge", mem_limit := "1g", cpu_quota := 50000,
    name := "openclaudeui-sandbox-" ++ session_id,
    privileged := none, cap_drop := none, cap_add := none,
    security_opt := none, memswap_limit := none }

/-- The dict `get_security_config` builds (`security.py`). -/
structure SecurityConfig where
  privileged : Bool
  cap_drop : List String
  cap_add : List String
  security_opt : List String
  mem_limit : String
  memswap_limit : String
  cpu_quota : Nat
deriving Repr, DecidableEq

/-- `get_security_config()`. -/
def get_security_config : SecurityConfig :=
  { privileged := false, cap_drop := ["ALL"], cap_add := [],
    security_opt := ["no-new-privileges"], mem_limit := "1g",
    memswap_limit := "1g", cpu_quota := 50000 }

/-! ### The file_edit tool
Embeds `FileEditTool.execute` (`src/backend/app/core/agent/tools/file_tools.py`)
with `validate_file_path` and Python's `posixpath.normpath`
(`src/backend/app/core/sandbox/security.py`).  Occurrence counting is
Python's `str.count` — non-overlapping, left to right, and `len(s) + 1`
for the empty pattern; `in` is containment, equivalent to a nonzero
count; `str.replace(old, new, 1)` replaces the leftmost occurrence.  The
fuel argument (one unit per scanned position) only makes the recursion
structural. -/

/-- Python `s.count(pat)` for a nonempty pattern `p :: ps`: scan left to
right, skip past each match. -/
def countOccFuel (p : Char) (ps : List Char) : Nat → List Char → Nat
  | _, [] => 0
  | 0, _ :: _ => 0
  | f + 1, c :: rest =>
      if (p :: ps).isPrefixOf (c :: rest) then
        1 + countOccFuel p ps f (rest.drop ps.length)
      else countOccFuel p ps f rest

/-- Python `s.count(pat)`. -/
def pyCount (s pat : String) : Nat :=
  match pat.toList with
  | [] => s.toList.length + 1
  | p :: ps => countOccFuel p ps s.toList.length s.toList

/-- Python `pat in s`: substring containment, a nonzero non-overlapping
count. -/
def pyContains (s pat : String) : Bool := pyCount s pat != 0

/-- Python `s.replace(old, new, 1)` for a nonempty `old`: replace the
leftmost occurrence, leave the string unchanged when there is none. -/
def replaceFirstNE (p : Char) (ps : List Char) (new : List Char) :
    List Char → List Char
  | [] => []
  | c :: rest =>
      if (p :: ps).isPrefixOf (c :: rest) then new ++ rest.drop ps.length
      else c :: replaceFirstNE p ps new rest

/-- Python `s.replace(old, new, 1)` (an empty `old` matches at position
zero and prepends `new`). -/
def pyReplaceFirst (s old new : String) : String :=
  match old.toList with
  | [] => new ++ s
  | p :: ps => String.mk (replaceFirstNE p ps new.toList s.toList)

/-- Joining path components back with `/`. -/
def joinWithSlash : List (List Char) → List Char
  | [] => []
  | [x] => x
  | x :: rest => x ++ '/' :: joinWithSlash rest

/-- Substring containment over `List Char` (Python `pat in s`). -/
def containsSub (l pat : List Char) : Bool :=
  match pat with
  | [] => true
  | p :: ps => countOccFuel p ps l.length l != 0

/-- `posixpath.normpath`: collapse `//` (except an initial double
slash), drop `.` components, resolve `..` against preceding components
where possible. -/
def normpathL (path : List Char) : List Char :=
  if path = [] then ['.']
  else
    let islashes : Nat :=
      if ['/', '/'].isPrefixOf path ∧ ¬ (['/', '/', '/'].isPrefixOf path)
        then 2
      else if ['/'].isPrefixOf path then 1 else 0
    let comps := splitOnChar '/' path
    let newComps := comps.foldl (fun acc comp =>
      if comp = [] ∨ comp = ['.'] then acc
      else if comp ≠ ['.', '.'] ∨ (islashes = 0 ∧ acc = []) ∨
          (acc ≠ [] ∧ acc.getLast? = some ['.', '.']) then acc ++ [comp]
      else if acc ≠ [] then acc.dropLast
      else acc) []
    let joined := joinWithSlash newComps
    let p := List.replicate islashes '/' ++ joined
    if p = [] then ['.'] else p

/-- `validate_file_path(path, allowed_base)`: the normalized path must
start with the allowed base and contain no `..`. -/
def validate_file_path (path allowed_base : String) : Bool :=
  let normalized := normpathL path.toList
  if ¬ (allowed_base.toList.isPrefixOf normalized) then false
  else if containsSub normalized ['.', '.'] then false
  else true

/-- The body of `FileEditTool.execute` after a successful read: the
`not in` check, the ambiguity check (`count > 1`), then the single
replacement.  The second component is the content handed to
`container.write_file`, `none` when no write happens.  (The source
ignores `write_file`'s own success flag.) -/
def fileEditOnContent (path old new content : String) :
    ToolResult × Option String :=
  if ¬ (pyContains content old = true) then
    ({ success := false, output := "",
       error := some ("Content to replace not found in file: " ++ path),
       is_validation_error := false }, none)
  else if 1 < pyCount content old then
    ({ success := false, output := "",
       error := some ("Content appears " ++
         toString (pyCount content old) ++
         " times in file. Please make old_content more specific."),
       is_validation_error := false }, none)
  else
    ({ success := true,
       output := "Successfully edited " ++ path,
       error := none, is_validation_error := false },
      some (pyReplaceFirst content old new))

/-- `FileEditTool.execute`, with the sandbox read as environment: the
`Except` input is what `container.read_file(path)` produced (`.error` =
it raised; the exception message feeds the `Failed to edit file:` arm of
the surrounding `except` clause). -/
def fileEditExecute (path old new : String)
    (file : Except String String) : ToolResult × Option String :=
  if ¬ (validate_file_path path "/workspace" = true) then
    ({ success := false, output := "",
       error := some ("Invalid file path: " ++ path),
       is_validation_error := false }, none)
  else
    match file with
    | .error m =>
        ({ success := false, output := "",
           error := some ("Failed to edit file: " ++ m),
           is_validation_error := false }, none)
    | .ok content => fileEditOnContent path old new content

/-! ### Theorems -/

theorem range'_concat_one (s n : Nat) :
    List.range' s (n + 1) = List.range' s n ++ [s + n] := by
  induction n generalizing s with
  | zero => simp [List.range']
  | succ k ih =>
      have h1 : List.range' s (k + 1 + 1) = s :: List.range' (s + 1) (k + 1) :=
        List.range'_succ s (k + 1) 1
      have h2 : List.range' s (k + 1) = s :: List.range' (s + 1) k :=
        List.range'_succ s k 1
      rw [h1, ih (s + 1), h2]
      have h : s + 1 + k = s + (k + 1) := by omega
      simp [h]

theorem maxSeq_append (l : List Nat) (a : Nat) :
    maxSeq (l ++ [a]) = max (maxSeq l) a := by
  simp [maxSeq, List.foldl_append]

theorem maxSeq_range' (n : Nat) : maxSeq (List.range' 1 n) = n := by
  induction n with
  | zero => simp [maxSeq]
  | succ k ih =>
      rw [range'_concat_one, maxSeq_append, ih]
      omega

theorem nextSeq_of_range' (s : SeqState) (n : Nat)
    (hp : s.persisted = List.range' 1 n)
    (hc : s.cache = none ∨ s.cache = some n) :
    (nextSeq s).1 = n + 1 := by
  rcases hc with h1 | h1
  · simp only [nextSeq, h1, hp, maxSeq_range']
  · simp only [nextSeq, h1]

theorem execSeq_aux (ops : List SeqOp) (s : SeqState) (n : Nat)
    (hp : s.persisted = List.range' 1 n)
    (hc : s.cache = none ∨ s.cache = some n) :
    (ops.foldl seqStep s).persisted =
        List.range' 1 (n + ops.count SeqOp.create) ∧
      ((ops.foldl seqStep s).cache = none ∨
        (ops.foldl seqStep s).cache = some (n + ops.count SeqOp.create)) := by
  induction ops generalizing s n with
  | nil => simpa using ⟨hp, hc⟩
  | cons op rest ih =>
      rw [List.foldl_cons]
      cases op with
      | create =>
          have hnext := nextSeq_of_range' s n hp hc
          have hp' : (seqStep s .create).persisted = List.range' 1 (n + 1) := by
            simp only [seqStep, hnext, hp]
            rw [range'_concat_one]
            have h : 1 + n = n + 1 := by omega
            rw [h]
          have hc' : (seqStep s .create).cache = none ∨
              (seqStep s .create).cache = some (n + 1) := by
            right
            simp only [seqStep, nextSeq]
            have hbase := nextSeq_of_range' s n hp hc
            simp only [nextSeq] at hbase
            rw [hbase]
          have := ih (seqStep s .create) (n + 1) hp' hc'
          have hcount : List.count SeqOp.create (SeqOp.create :: rest) =
              List.count SeqOp.create rest + 1 := by
            simp [List.count_cons]
          rw [hcount]
          have harith : n + (List.count SeqOp.create rest + 1) =
              n + 1 + List.count SeqOp.create rest := by omega
          rw [harith]
          exact this
      | reconnect =>
          have := ih (seqStep s .reconnect) n (by simpa [seqStep] using hp)
            (Or.inl rfl)
          have hcount : List.count SeqOp.create (SeqOp.reconnect :: rest) =
              List.count SeqOp.create rest := by
            simp [List.count_cons]
          rw [hcount]
          exact this
      | attach =>
          have := ih (seqStep s .attach) n (by simpa [seqStep] using hp)
            (by simpa [seqStep] using hc)
          have hcount : List.count SeqOp.create (SeqOp.attach :: rest) =
              List.count SeqOp.create rest := by
            simp [List.count_cons]
          rw [hcount]
          exact this

/-- C1: for every conversation the persisted sequence numbers are exactly
the gapless sequence `1..n` (in order, no gaps, no repeats), no matter how
many reconnect/attach cycles occur, and the number handed to the next
created unit is strictly greater than every persisted one. -/
theorem contentSequencer_gapless (ops : List SeqOp) :
    (execSeq ops).persisted = List.range' 1 (ops.count SeqOp.create) ∧
      ∀ x ∈ (execSeq ops).persisted, x < (nextSeq (execSeq ops)).1 := by
  obtain ⟨hp, hc⟩ := execSeq_aux ops ⟨[], none⟩ 0 rfl (Or.inl rfl)
  simp only [execSeq] at *
  rw [Nat.zero_add] at hp hc
  refine ⟨hp, ?_⟩
  intro x hx
  have hnext := nextSeq_of_range' (List.foldl seqStep ⟨[], none⟩ ops)
    (ops.count SeqOp.create) hp hc
  rw [hnext]
  rw [hp] at hx
  have := List.mem_range'_1.mp hx
  omega

theorem runLoop_bound (cfg : AgentConfig) (script : Nat → IterInput) :
    ∀ (remaining i : Nat) (st : AgState) (acc : List AgentEvent),
      (runLoop cfg script st i remaining acc).itersEntered ≤ i + remaining ∧
        ((runLoop cfg script st i remaining acc).stopped = none →
          (runLoop cfg script st i remaining acc).itersEntered =
              i + remaining ∧
            ∃ evs, (runLoop cfg script st i remaining acc).events =
              evs ++ [AgentEvent.finalAnswer maxIterMsg]) := by
  intro remaining
  induction remaining with
  | zero =>
      intro i st acc
      exact ⟨Nat.le_refl _, fun _ => ⟨rfl, acc, rfl⟩⟩
  | succ r ih =>
      intro i st acc
      cases h : stepIter cfg st (script i) with
      | halt events reason =>
          simp only [runLoop, h]
          refine ⟨by omega, ?_⟩
          intro hnone
          simp at hnone
      | next events st' =>
          simp only [runLoop, h]
          have := ih (i + 1) st' (acc ++ events)
          refine ⟨by omega, ?_⟩
          intro hnone
          obtain ⟨h1, h2⟩ := this.2 hnone
          exact ⟨by omega, h2⟩

/-- C6: every run of the agent loop enters at most `max_iterations`
iterations (10 by default); when no iteration returns early with a final
text answer, an error or a cancellation, the loop runs exactly
`max_iterations` iterations and then yields the
max-iterations `final_answer` event and returns. -/
theorem agentLoop_bounded (cfg : AgentConfig) (script : Nat → IterInput)
    (st0 : AgState) :
    (agentRun cfg script st0).itersEntered ≤ cfg.max_iterations ∧
      ((agentRun cfg script st0).stopped = none →
        (agentRun cfg script st0).itersEntered = cfg.max_iterations ∧
          ∃ evs, (agentRun cfg script st0).events =
            evs ++ [AgentEvent.finalAnswer maxIterMsg]) ∧
      ({} : AgentConfig).max_iterations = 10 := by
  have h := runLoop_bound cfg script cfg.max_iterations 0 st0 []
  rw [Nat.zero_add] at h
  exact ⟨h.1, h.2, rfl⟩

/-- Witness for C6: with the default configuration and a model that calls
a known tool with invalid arguments forever, the loop enters exactly 10
iterations and ends in the max-iterations `final_answer` event. -/
theorem agentLoop_bounded_witness :
    (agentRun {} (fun _ => validationLoopInput) ⟨[], 0, []⟩).stopped =
        none ∧
      (agentRun {} (fun _ => validationLoopInput) ⟨[], 0, []⟩).itersEntered =
          10 ∧
        ∃ evs, (agentRun {} (fun _ => validationLoopInput)
            ⟨[], 0, []⟩).events = evs ++ [AgentEvent.finalAnswer maxIterMsg] :=
  ⟨by decide,
    ((agentLoop_bounded {} (fun _ => validationLoopInput) ⟨[], 0, []⟩).2.1
      (by decide)).1,
    ((agentLoop_bounded {} (fun _ => validationLoopInput) ⟨[], 0, []⟩).2.1
      (by decide)).2⟩

theorem processStream_events_kind (items : List StreamItem) :
    ∀ (full : String) (calls : List (Nat × Option String × String))
      (acc : List AgentEvent), acc.all isChunkOrCancelled = true →
        (streamEvents (processStream items full calls acc)).all
          isChunkOrCancelled = true := by
  induction items with
  | nil =>
      intro full calls acc h
      simpa [processStream, streamEvents] using h
  | cons it rest ih =>
      intro full calls acc h
      cases it with
      | text s =>
          simp only [processStream]
          exact ih _ _ _ (by simp [h, isChunkOrCancelled])
      | call i nm a =>
          simp only [processStream]
          exact ih _ _ _ h
      | cancelSignal =>
          simp [processStream, streamEvents, h, isChunkOrCancelled]

theorem handlerStep_no_toolBlock (bid : Nat) (st : HState) (e : AgentEvent)
    (h : isChunkOrCancelled e = true) :
    ((handlerStep bid st e).1).all (fun a => !(createsToolBlock a)) = true := by
  cases e with
  | chunk c =>
      simp only [handlerStep]
      split <;> simp [createsToolBlock]
  | cancelled c p => simp [handlerStep, createsToolBlock]
  | action t a => simp [isChunkOrCancelled] at h
  | observation o s => simp [isChunkOrCancelled] at h
  | error m => simp [isChunkOrCancelled] at h
  | finalAnswer a => simp [isChunkOrCancelled] at h

theorem handlerLoop_cons (bid : Nat) (st : HState) (e : AgentEvent)
    (rest : List AgentEvent) :
    handlerLoop bid st (e :: rest) =
      (match handlerStep bid st e with
        | (acts, st', true) => (acts, st')
        | (acts, st', false) =>
            (acts ++ (handlerLoop bid st' rest).1,
              (handlerLoop bid st' rest).2)) := by
  simp only [handlerLoop]

theorem handlerLoop_no_toolBlock (bid : Nat) :
    ∀ (evs : List AgentEvent) (st : HState),
      evs.all isChunkOrCancelled = true →
      ((handlerLoop bid st evs).1).all (fun a => !(createsToolBlock a)) =
        true := by
  intro evs
  induction evs with
  | nil => intro st _; simp [handlerLoop]
  | cons e rest ih =>
      intro st h
      simp only [List.all_cons, Bool.and_eq_true] at h
      have hstep := handlerStep_no_toolBlock bid st e h.1
      rw [handlerLoop_cons]
      rcases hs : handlerStep bid st e with ⟨acts, st', brk⟩
      rw [hs] at hstep
      cases brk with
      | true => simpa using hstep
      | false =>
          have h2 := ih st' h.2
          simp only [List.all_append]
          simp at hstep h2 ⊢
          exact ⟨hstep, h2⟩

/-- C4: a tool call that fails schema validation yields no `action` and no
`observation` event (the iteration's events are only the already-streamed
text chunks), so the handler persists no `tool_call` and no `tool_result`
block for the attempt; the only effect is the corrective feedback message
appended to the model context, with the escalation variant and a counter
reset once `max_validation_retries` consecutive failures are reached. -/
theorem validationError_soft (cfg : AgentConfig) (st : AgState)
    (inp : IterInput) (bid : Nat) (hst : HState) (full : String)
    (calls : List (Nat × Option String × String))
    (events : List AgentEvent) (i : Nat) (name args : String)
    (h0 : inp.cancelBefore = false)
    (h1 : processStream inp.stream "" [] [] = .done full calls events)
    (h2 : minKey calls = some i)
    (h3 : lookupCall calls i = (some name, args))
    (h4 : name ≠ "")
    (h5 : inp.knownTools.contains name = true)
    (h6 : inp.result.is_validation_error = true) :
    stepIter cfg st inp = .next events
      { messages := st.messages ++
          [⟨"assistant", full, some (name, args)⟩,
            ⟨"user",
              (if cfg.max_validation_retries ≤ st.validation_retry_count + 1
                then escalationMsg name (st.validation_retry_count + 1)
                  (errStr inp.result)
                else validationMsg name (st.validation_retry_count + 1)
                  cfg.max_validation_retries (errStr inp.result)), none⟩]
        validation_retry_count :=
          (if cfg.max_validation_retries ≤ st.validation_retry_count + 1
            then 0 else st.validation_retry_count + 1)
        tool_call_history := st.tool_call_history } ∧
      events.all isChunkOrCancelled = true ∧
      ((handlerLoop bid hst events).1).all (fun a => !(createsToolBlock a)) =
        true := by
  have hevents : events.all isChunkOrCancelled = true := by
    have := processStream_events_kind inp.stream "" [] [] rfl
    rw [h1] at this
    simpa [streamEvents] using this
  refine ⟨?_, hevents, handlerLoop_no_toolBlock bid events hst hevents⟩
  simp only [stepIter, h0, Bool.false_eq_true, if_false, h1, h2, h3]
  rw [if_pos ⟨h4, by simpa using h5⟩]
  simp only [h6, if_true]
  split
  · simp [List.append_assoc]
  · simp [List.append_assoc]

/-- Witness for C4: with a fresh state, the default configuration and a
schema-invalid `bash` call, the iteration only appends the corrective
feedback message and persists nothing. -/
theorem validationError_soft_witness :
    stepIter {} ⟨[], 0, []⟩ validationLoopInput = StepOut.next []
      { messages := [⟨"assistant", "", some ("bash", "{}")⟩,
          ⟨"user", validationMsg "bash" 1 3
            "missing required parameter: command", none⟩]
        validation_retry_count := 1
        tool_call_history := [] } ∧
      (handlerLoop 1 ⟨"", false, false, 0, none⟩ []).1.all
        (fun a => !(createsToolBlock a)) = true := by
  have h := validationError_soft {} ⟨[], 0, []⟩ validationLoopInput 1
    ⟨"", false, false, 0, none⟩ "" [(0, some "bash", "{}")] [] 0 "bash" "{}"
    rfl (by decide) rfl (by decide) (by decide) (by decide) rfl
  refine ⟨?_, h.2.2⟩
  have h1 := h.1
  simpa using h1

/-- C8: when the tool name just appended fills the whole
`max_same_tool_retries`-sized tail of the call history with one tool
(whatever the call results were), the iteration emits no `action` and no
`observation` event, appends the loop-detected corrective message, clears
the call history and continues — it does not terminate the run. -/
theorem loopDetection_soft (cfg : AgentConfig) (st : AgState)
    (inp : IterInput) (bid : Nat) (hst : HState) (full : String)
    (calls : List (Nat × Option String × String))
    (events : List AgentEvent) (i : Nat) (name args : String)
    (h0 : inp.cancelBefore = false)
    (h1 : processStream inp.stream "" [] [] = .done full calls events)
    (h2 : minKey calls = some i)
    (h3 : lookupCall calls i = (some name, args))
    (h4 : name ≠ "")
    (h5 : inp.knownTools.contains name = true)
    (h6 : inp.result.is_validation_error = false)
    (h7 : (lastSlice (st.tool_call_history ++ [name])
        cfg.max_same_tool_retries).length = cfg.max_same_tool_retries)
    (h8 : allSame (lastSlice (st.tool_call_history ++ [name])
        cfg.max_same_tool_retries) = true) :
    stepIter cfg st inp = .next events
      { messages := st.messages ++
          [⟨"assistant", full, some (name, args)⟩,
            ⟨"user", loopMsg name cfg.max_same_tool_retries, none⟩]
        validation_retry_count := 0
        tool_call_history := [] } ∧
      events.all isChunkOrCancelled = true ∧
      ((handlerLoop bid hst events).1).all (fun a => !(createsToolBlock a)) =
        true := by
  have hevents : events.all isChunkOrCancelled = true := by
    have := processStream_events_kind inp.stream "" [] [] rfl
    rw [h1] at this
    simpa [streamEvents] using this
  refine ⟨?_, hevents, handlerLoop_no_toolBlock bid events hst hevents⟩
  simp only [stepIter, h0, Bool.false_eq_true, if_false, h1, h2, h3]
  rw [if_pos ⟨h4, by simpa using h5⟩]
  simp only [h6, Bool.false_eq_true, if_false]
  rw [if_pos ⟨h7, h8⟩]
  simp [List.append_assoc]

/-- Witness for C8: after four consecutive `bash` calls, a fifth `bash`
call (an ordinary execution failure) trips loop detection: the corrective
message is appended, the history cleared, and the loop continues. -/
theorem loopDetection_soft_witness :
    stepIter {} ⟨[], 0, ["bash", "bash", "bash", "bash"]⟩ loopDetectInput =
      StepOut.next []
        { messages := [⟨"assistant", "", some ("bash", "{}")⟩,
            ⟨"user", loopMsg "bash" 5, none⟩]
          validation_retry_count := 0
          tool_call_history := [] } := by
  have h := loopDetection_soft {} ⟨[], 0, ["bash", "bash", "bash", "bash"]⟩
    loopDetectInput 1 ⟨"", false, false, 0, none⟩ ""
    [(0, some "bash", "{}")] [] 0 "bash" "{}"
    rfl (by decide) rfl (by decide) (by decide) (by decide) rfl
    (by decide) (by decide)
  have h1 := h.1
  simpa using h1

theorem handlerLoop_final (bid : Nat) :
    ∀ (evs : List AgentEvent) (st : HState),
      (handlerLoop bid st evs).2.content = st.content ++ streamedText evs ∧
        (handlerLoop bid st evs).2.cancelled =
          (st.cancelled || firstBreakIsCancel evs) ∧
        (handlerLoop bid st evs).2.hasError =
          (st.hasError || firstBreakIsError evs) := by
  intro evs
  induction evs with
  | nil =>
      intro st
      simp [handlerLoop, streamedText, firstBreakIsCancel, firstBreakIsError]
  | cons e rest ih =>
      intro st
      rw [handlerLoop_cons]
      cases e with
      | cancelled c p =>
          simp [handlerStep, streamedText, isBreakEvent,
            firstBreakIsCancel, firstBreakIsError]
      | error m =>
          simp [handlerStep, streamedText, isBreakEvent,
            firstBreakIsCancel, firstBreakIsError]
      | chunk c =>
          simp only [handlerStep]
          by_cases hP : chunkCommitInterval ≤ st.chunksSinceCommit + 1
          · rw [if_pos hP]
            have h := ih ⟨st.content ++ c, st.hasError, st.cancelled, 0,
              st.currentTool⟩
            simp only [streamedText, isBreakEvent, textPayload,
              firstBreakIsCancel, firstBreakIsError, Bool.not_false] at *
            simpa [String.append_assoc] using h
          · rw [if_neg hP]
            have h := ih ⟨st.content ++ c, st.hasError, st.cancelled,
              st.chunksSinceCommit + 1, st.currentTool⟩
            simp only [streamedText, isBreakEvent, textPayload,
              firstBreakIsCancel, firstBreakIsError, Bool.not_false] at *
            simpa [String.append_assoc] using h
      | finalAnswer a =>
          simp only [handlerStep]
          by_cases hP : chunkCommitInterval ≤ st.chunksSinceCommit + 1
          · rw [if_pos hP]
            have h := ih ⟨st.content ++ a, st.hasError, st.cancelled, 0,
              st.currentTool⟩
            simp only [streamedText, isBreakEvent, textPayload,
              firstBreakIsCancel, firstBreakIsError, Bool.not_false] at *
            simpa [String.append_assoc] using h
          · rw [if_neg hP]
            have h := ih ⟨st.content ++ a, st.hasError, st.cancelled,
              st.chunksSinceCommit + 1, st.currentTool⟩
            simp only [streamedText, isBreakEvent, textPayload,
              firstBreakIsCancel, firstBreakIsError, Bool.not_false] at *
            simpa [String.append_assoc] using h
      | action t a =>
          simp only [handlerStep]
          have h := ih ⟨st.content, st.hasError, st.cancelled,
            st.chunksSinceCommit, some t⟩
          simp only [streamedText, isBreakEvent, textPayload,
            firstBreakIsCancel, firstBreakIsError, Bool.not_false] at *
          simpa using h
      | observation o s =>
          simp only [handlerStep]
          have h := ih ⟨st.content, st.hasError, st.cancelled,
            (match st.currentTool with
              | some _ => 0
              | none => st.chunksSinceCommit), none⟩
          simp only [streamedText, isBreakEvent, textPayload,
            firstBreakIsCancel, firstBreakIsError, Bool.not_false] at *
          simpa using h

theorem firstBreak_cancel_not_error (evs : List AgentEvent)
    (h : firstBreakIsCancel evs = true) : firstBreakIsError evs = false := by
  induction evs with
  | nil => simp [firstBreakIsCancel] at h
  | cons e rest ih =>
      cases e <;>
        simp_all [firstBreakIsCancel, firstBreakIsError]

/-- Counterexample to C5 as stated: one chunk `"a"` is streamed, then the
cancellation is observed.  The handler sends the `cancelled` frame first
and only afterwards durably commits the partial text, so no durable write
of the streamed text precedes the terminal cancellation event — even
though the trace does send that event and does persist the text later. -/
theorem cancellation_durability_counterexample :
    persistedBeforeCancelFrame "a"
        (handlerTrace 1 [AgentEvent.chunk "a",
          AgentEvent.cancelled "Response cancelled by user" (some "a")]) =
        false ∧
      (handlerTrace 1 [AgentEvent.chunk "a",
          AgentEvent.cancelled "Response cancelled by user" (some "a")]).any
          isCancelFrameSend = true ∧
      (handlerTrace 1 [AgentEvent.chunk "a",
          AgentEvent.cancelled "Response cancelled by user" (some "a")]).any
          (commitsText "a") = true := by
  decide

/-- C5 (amended): when a generation is cancelled mid-stream, the
assistant unit is finalized with persisted content equal to exactly the
text streamed before the cancellation was observed, and this durable
final write precedes the `assistant_text_end` terminal frame (which
carries the cancelled flag) and the registry completion mark; the
separate `cancelled` notification frame, however, is sent before the
final durable write, not after it. -/
theorem cancellation_durability (bid : Nat) (evs : List AgentEvent)
    (h : firstBreakIsCancel evs = true) :
    ∃ pre, handlerTrace bid evs = pre ++
        [HAction.finalCommit (streamedText evs) false true,
          HAction.send (Frame.assistantTextEnd bid false true),
          HAction.markCompleted "cancelled"] := by
  obtain ⟨hc, hcan, herr⟩ :=
    handlerLoop_final bid evs ⟨"", false, false, 0, none⟩
  have herr2 := firstBreak_cancel_not_error evs h
  refine ⟨[HAction.createAssistantBlock bid,
    HAction.send (Frame.assistantTextStart bid)] ++
    (handlerLoop bid ⟨"", false, false, 0, none⟩ evs).1, ?_⟩
  simp only [handlerTrace]
  rcases hl : handlerLoop bid ⟨"", false, false, 0, none⟩ evs with ⟨acts, stF⟩
  rw [hl] at hc hcan herr
  simp only at hc hcan herr
  rw [h] at hcan
  rw [herr2] at herr
  simp at hc hcan herr
  simp [hc, hcan, herr, finalStatus, List.append_assoc]

/-- Witness for C5's amended theorem at the counterexample's input: the
trace ends with the durable commit of `"a"`, then the terminal frame,
then the completion mark. -/
theorem cancellation_durability_witness :
    ∃ pre, handlerTrace 1 [AgentEvent.chunk "a",
        AgentEvent.cancelled "Response cancelled by user" (some "a")] =
      pre ++
        [HAction.finalCommit
            (streamedText [AgentEvent.chunk "a",
              AgentEvent.cancelled "Response cancelled by user" (some "a")])
            false true,
          HAction.send (Frame.assistantTextEnd 1 false true),
          HAction.markCompleted "cancelled"] :=
  cancellation_durability 1
    [AgentEvent.chunk "a",
      AgentEvent.cancelled "Response cancelled by user" (some "a")]
    (by decide)

theorem take_drop_append_drop (acc : List Char) (g len : Nat)
    (h0 : g ≤ len) (h1 : len ≤ acc.length) :
    (acc.take len).drop g ++ acc.drop len = acc.drop g := by
  conv_rhs => rw [← List.take_append_drop len acc]
  rw [List.drop_append_eq_append_drop]
  have h2 : g - (acc.take len).length = 0 := by
    simp [List.length_take]
    omega
  rw [h2, List.drop_zero]

theorem attachStep_inv (st : AttachState) (op : AttachStep)
    (h : AttachInv st) : AttachInv (attachStep st op) := by
  cases op with
  | append s =>
      simp only [attachStep]
      split
      · constructor
        · intro hnone
          exact (h.1 hnone).trans (List.prefix_append _ _)
        · intro len hlen
          obtain ⟨hle, n0, g0, hn, hg, hs⟩ := h.2 len hlen
          refine ⟨?_, n0, g0, hn, hg, ?_⟩
          · simp only [List.length_append]
            omega
          · simp only
            rw [List.take_append_of_le_length (by omega),
              List.take_append_of_le_length hle]
            exact hs
      · exact h
  | markDone => exact h
  | clearState => exact h
  | initLastLen =>
      cases hll : st.lastLen with
      | none =>
          simp only [attachStep, hll]
          constructor
          · intro hc
            simp at hc
          · intro len hlen
            simp only [Option.some.injEq] at hlen
            have hpre := h.1 hll
            have htake := List.prefix_iff_eq_take.mp hpre
            have hlenle := hpre.length_le
            refine ⟨?_, st.sent.length, len, ?_, by omega, ?_⟩
            · show len ≤ st.accumulated.length
              omega
            · omega
            · show st.sent = st.accumulated.take st.sent.length ++
                (st.accumulated.take len).drop len
              have hnil : (st.accumulated.take len).drop len = [] := by
                apply List.drop_eq_nil_of_le
                simp [List.length_take]
              rw [hnil, List.append_nil]
              exact htake
      | some len0 =>
          simp only [attachStep, hll]
          exact h
  | poll =>
      cases hll : st.lastLen with
      | none =>
          simp only [attachStep, hll]
          exact h
      | some len =>
          simp only [attachStep, hll]
          split
          case isTrue hcond =>
            obtain ⟨hle, n0, g0, hn, hg, hs⟩ := h.2 len hll
            constructor
            · intro hc
              simp at hc
            · intro len2 hlen2
              simp only [Option.some.injEq] at hlen2
              refine ⟨?_, n0, g0, hn, by omega, ?_⟩
              · show len2 ≤ st.accumulated.length
                omega
              · show st.sent ++ st.accumulated.drop len =
                  st.accumulated.take n0 ++
                    (st.accumulated.take len2).drop g0
                subst hlen2
                rw [hs, List.append_assoc,
                  take_drop_append_drop st.accumulated g0 len hg hle,
                  List.take_length]
          case isFalse => exact h

theorem runAttach_inv_aux (steps : List AttachStep) :
    ∀ st : AttachState, AttachInv st → AttachInv (runAttach st steps) := by
  induction steps with
  | nil => intro st h; simpa [runAttach] using h
  | cons s rest ih =>
      intro st h
      have h1 := attachStep_inv st s h
      have h2 := ih (attachStep st s) h1
      simpa [runAttach] using h2

theorem runAttach_inv (acc0 : List Char) (steps : List AttachStep) :
    AttachInv (runAttach (attachStart acc0) steps) := by
  refine runAttach_inv_aux steps (attachStart acc0) ⟨?_, ?_⟩
  · intro _
    exact List.prefix_refl _
  · intro len hlen
    simp [attachStart] at hlen

theorem attachStep_strong (st : AttachState) (op : AttachStep)
    (h : AttachStrong st) : AttachStrong (attachStep st op) := by
  obtain ⟨len, hll, hle, hs⟩ := h
  cases op with
  | append s =>
      simp only [attachStep]
      split
      · refine ⟨len, hll, ?_, ?_⟩
        · simp only [List.length_append]
          omega
        · simp only
          rw [List.take_append_of_le_length hle]
          exact hs
      · exact ⟨len, hll, hle, hs⟩
  | markDone => exact ⟨len, hll, hle, hs⟩
  | clearState => exact ⟨len, hll, hle, hs⟩
  | initLastLen =>
      simp only [attachStep, hll]
      exact ⟨len, hll, hle, hs⟩
  | poll =>
      simp only [attachStep, hll]
      split
      case isTrue hcond =>
        refine ⟨st.accumulated.length, rfl, Nat.le_refl _, ?_⟩
        simp only
        rw [hs, List.take_length]
        exact List.take_append_drop len st.accumulated
      case isFalse => exact ⟨len, hll, hle, hs⟩

theorem runAttach_strong (acc0 : List Char) (rest : List AttachStep) :
    AttachStrong (runAttach
      (attachStep (attachStart acc0) AttachStep.initLastLen) rest) := by
  have h0 : AttachStrong (attachStep (attachStart acc0)
      AttachStep.initLastLen) :=
    ⟨acc0.length, rfl, Nat.le_refl _, (List.take_length acc0).symm⟩
  induction rest generalizing acc0 with
  | nil => simpa [runAttach] using h0
  | cons s rest2 ih =>
      have h1 := attachStep_strong _ s h0
      have h2 := runAttach_inv_aux rest2
      clear h2
      have h3 : AttachStrong (runAttach
          (attachStep (attachStart acc0) AttachStep.initLastLen)
          (s :: rest2)) := by
        have : ∀ (stp : List AttachStep) (st : AttachState),
            AttachStrong st → AttachStrong (runAttach st stp) := by
          intro stp
          induction stp with
          | nil => intro st hh; simpa [runAttach] using hh
          | cons t r2 ih2 =>
              intro st hh
              have := ih2 (attachStep st t) (attachStep_strong st t hh)
              simpa [runAttach] using this
        exact this (s :: rest2) _ h0
      exact h3

theorem attachStrong_poll (st : AttachState) (h : AttachStrong st)
    (hrun : st.taskRunning = true) (hpres : st.statePresent = true) :
    (attachStep st AttachStep.poll).sent = st.accumulated := by
  obtain ⟨len, hll, hle, hs⟩ := h
  simp only [attachStep, hll]
  by_cases hlt : len < st.accumulated.length
  · rw [if_pos ⟨by simp [hrun], by simp [hpres], hlt⟩]
    simp only
    rw [hs, List.take_append_drop]
  · rw [if_neg ?_]
    · rw [hs, List.take_of_length_le (by omega)]
    · intro hcon
      exact hlt hcon.2.2

/-- Counterexample to C3 as stated, at two interleavings of the same
code.  First: the client attaches (snapshot `"He"`, then the
`last_content_length` read), the writer appends `"llo"`, completes and
clears the stream state before the attach loop polls again; the loop
exits and the client — connected until completion — never receives the
tail.  Second: the writer appends `"X"` between the `stream_sync`
snapshot and the `last_content_length` read (the two are separated by an
`await`), then appends `"Y"`; the poll forwards only from the later
read's offset, so `"X"` is skipped forever and the received bytes are
not even a prefix of the streamed text. -/
theorem attach_resume_counterexample :
    ((runAttach (attachStart ("He".toList))
        [AttachStep.initLastLen, AttachStep.append ("llo".toList),
          AttachStep.markDone, AttachStep.clearState]).taskRunning =
        false ∧
      (runAttach (attachStart ("He".toList))
          [AttachStep.initLastLen, AttachStep.append ("llo".toList),
            AttachStep.markDone, AttachStep.clearState]).sent ≠
        (runAttach (attachStart ("He".toList))
            [AttachStep.initLastLen, AttachStep.append ("llo".toList),
              AttachStep.markDone,
              AttachStep.clearState]).accumulated) ∧
      ((runAttach (attachStart ("He".toList))
          [AttachStep.append ("X".toList), AttachStep.initLastLen,
            AttachStep.append ("Y".toList), AttachStep.poll]).sent).isPrefixOf
        ((runAttach (attachStart ("He".toList))
            [AttachStep.append ("X".toList), AttachStep.initLastLen,
              AttachStep.append ("Y".toList),
              AttachStep.poll]).accumulated) = false := by
  decide

/-- C3 (amended): under every interleaving — including a writer append
in the `await` window between the `stream_sync` snapshot and the
`last_content_length` read — the attached client's bytes are the
`stream_sync` prefix followed by at most one contiguous later segment of
the streamed text: no byte is duplicated, reordered or invented, but the
window bytes fall in the gap and are never forwarded.  When no append
interleaves in that window, the received bytes always form a prefix of
the streamed text, and a poll that runs while the task is still marked
running and the stream state exists brings the client exactly up to
date; the full text therefore reaches such a client iff some poll runs
after the final append and before the completion mark. -/
theorem attachResume_segment_exact (acc0 : List Char)
    (steps : List AttachStep) :
    AttachInv (runAttach (attachStart acc0) steps) ∧
      (∀ rest : List AttachStep,
        (runAttach (attachStep (attachStart acc0) AttachStep.initLastLen)
            rest).sent <+:
          (runAttach (attachStep (attachStart acc0)
              AttachStep.initLastLen) rest).accumulated) ∧
      ∀ rest : List AttachStep,
        (runAttach (attachStep (attachStart acc0) AttachStep.initLastLen)
            rest).taskRunning = true →
          (runAttach (attachStep (attachStart acc0)
              AttachStep.initLastLen) rest).statePresent = true →
          (attachStep (runAttach (attachStep (attachStart acc0)
              AttachStep.initLastLen) rest) AttachStep.poll).sent =
            (runAttach (attachStep (attachStart acc0)
                AttachStep.initLastLen) rest).accumulated := by
  refine ⟨runAttach_inv acc0 steps, ?_, ?_⟩
  · intro rest
    obtain ⟨len, hll, hle, hs⟩ := runAttach_strong acc0 rest
    rw [hs]
    exact List.take_prefix _ _
  · intro rest hrun hpres
    exact attachStrong_poll _ (runAttach_strong acc0 rest) hrun hpres

/-- Witness for C3's amended theorem: the segment invariant holds of a
run with an append inside the initialization window, and in a run whose
window is clean (attach at `"He"`, then one `"llo"` append) the next
poll — task running, state present — delivers exactly the full text. -/
theorem attachResume_segment_exact_witness :
    AttachInv (runAttach (attachStart ("He".toList))
        [AttachStep.append ("X".toList), AttachStep.initLastLen]) ∧
      (attachStep (runAttach (attachStep (attachStart ("He".toList))
          AttachStep.initLastLen) [AttachStep.append ("llo".toList)])
          AttachStep.poll).sent =
        (runAttach (attachStep (attachStart ("He".toList))
            AttachStep.initLastLen)
            [AttachStep.append ("llo".toList)]).accumulated :=
  ⟨(attachResume_segment_exact ("He".toList)
      [AttachStep.append ("X".toList), AttachStep.initLastLen]).1,
    (attachResume_segment_exact ("He".toList) []).2.2
      [AttachStep.append ("llo".toList)] (by decide) (by decide)⟩

theorem disciplined_running_le_one (tr : List SessEvent) :
    ∀ st : SessState, st.running ≤ 1 → disciplined st tr = true →
      (tr.foldl sessStep st).running ≤ 1 := by
  induction tr with
  | nil => intro st h _; simpa using h
  | cons e rest ih =>
      intro st h hd
      simp only [disciplined, Bool.and_eq_true] at hd
      rw [List.foldl_cons]
      refine ih (sessStep st e) ?_ hd.2
      cases e with
      | connect =>
          simp only [sessStep]
          split
          · exact h
          · exact h
      | message =>
          have hz : st.running = 0 := by
            have := hd.1
            simpa using this
          simp only [sessStep]
          split
          · show st.running + 1 ≤ 1
            omega
          · exact h
      | complete =>
          simp only [sessStep]
          split
          · show st.running - 1 ≤ 1
            omega
          · exact h

/-- Counterexample to C2 as stated: one connection opens while no task is
running and then sends two `message` frames back to back; the message
loop registers a second generation task without checking the registry,
so two running generation tasks exist at once. -/
theorem session_mutex_counterexample :
    (runSess [SessEvent.connect, SessEvent.message,
        SessEvent.message]).running = 2 := by
  decide

/-- C2 (amended): a new inbound connection for a conversation whose
registered task is still running attaches to that task instead of
starting a generation — connection establishment never changes the number
of running tasks — and as long as `message` frames only arrive while no
generation is running, at most one non-terminal task exists at any time;
the per-connection message loop itself, however, performs no registry
check, so a second `message` frame during a running generation does start
a second task. -/
theorem sessionRegistry_mutex (tr : List SessEvent)
    (h : disciplined ⟨none, 0, 0⟩ tr = true) :
    (runSess tr).running ≤ 1 ∧
      (∀ st : SessState, (sessStep st SessEvent.connect).running =
        st.running) ∧
      ∀ st : SessState, st.taskStatus = some "running" →
        sessStep st SessEvent.connect = st := by
  refine ⟨disciplined_running_le_one tr ⟨none, 0, 0⟩ (by simp) h, ?_, ?_⟩
  · intro st
    simp only [sessStep]
    split <;> rfl
  · intro st hrun
    simp [sessStep, hrun]

/-- Witness for C2's amended theorem: a disciplined trace — connect,
message, completion, reconnect, message — never holds two running tasks. -/
theorem sessionRegistry_mutex_witness :
    (runSess [SessEvent.connect, SessEvent.message, SessEvent.complete,
        SessEvent.connect, SessEvent.message]).running ≤ 1 :=
  (sessionRegistry_mutex
    [SessEvent.connect, SessEvent.message, SessEvent.complete,
      SessEvent.connect, SessEvent.message] (by decide)).1

/-- C7 evaluated: when the file cannot be read (the archive extraction
raises, e.g. for a nonexistent path), `read_file` raises
`Failed to read file: ...` instead of returning absent as the claim and
the function's own docstring state; the two positive arms behave as
claimed — UTF-8 bytes decode to text, undecodable bytes become a base64
data URI tagged with the MIME type guessed from the path. -/
theorem read_file_error_on_unreadable :
    read_file "/workspace/missing.txt"
        (ReadOutcome.archiveError
          "404 Client Error for missing.txt: Not Found") =
      Except.error
        "Failed to read file: 404 Client Error for missing.txt: Not Found" ∧
      read_file "/workspace/out/hi.txt"
          (ReadOutcome.bytes [0x68, 0x69]) = Except.ok (some "hi") ∧
      read_file "/workspace/out/img.png"
          (ReadOutcome.bytes [0x89, 0x50, 0x4E, 0x47]) =
        Except.ok (some "data:image/png;base64,iVBORw==") := by
  decide

/-- C9 evaluated: the container is started with the claimed 1 GiB memory
ceiling and 50% CPU quota, but `create_container` passes none of the
privilege-dropping options — `cap_drop`, `security_opt` and `privileged`
are absent from the `containers.run` call even though
`get_security_config` defines them (`cap_drop=["ALL"]`,
`security_opt=["no-new-privileges"]`, `privileged=False`) and is never
called. -/
theorem create_container_security_not_applied :
    (createContainerRunKwargs "s1" "openclaudeui-env-python3.13:latest").mem_limit
        = "1g" ∧
      (createContainerRunKwargs "s1"
          "openclaudeui-env-python3.13:latest").cpu_quota = 50000 ∧
      (createContainerRunKwargs "s1"
          "openclaudeui-env-python3.13:latest").cap_drop = none ∧
      (createContainerRunKwargs "s1"
          "openclaudeui-env-python3.13:latest").security_opt = none ∧
      (createContainerRunKwargs "s1"
          "openclaudeui-env-python3.13:latest").privileged = none ∧
      get_security_config.cap_drop = ["ALL"] ∧
      get_security_config.security_opt = ["no-new-privileges"] ∧
      get_security_config.privileged = false := by
  decide

/-- C10: given a path accepted by `validate_file_path` and a readable
file, `file_edit` succeeds exactly when `old_content` occurs exactly once
in the current content (Python occurrence counting); on success it writes
the content with that single leftmost occurrence replaced, and on any
failure — zero occurrences, several occurrences, an invalid path or an
unreadable file — it writes nothing. -/
theorem fileEdit_exactly_once (path old new content : String)
    (hv : validate_file_path path "/workspace" = true) :
    ((fileEditExecute path old new (Except.ok content)).1.success = true ↔
        pyCount content old = 1) ∧
      (fileEditExecute path old new (Except.ok content)).2 =
        (if pyCount content old = 1
          then some (pyReplaceFirst content old new) else none) ∧
      ∀ fo : Except String String,
        (fileEditExecute path old new fo).1.success = false →
          (fileEditExecute path old new fo).2 = none := by
  have hok : ∀ c : String,
      fileEditExecute path old new (Except.ok c) =
        fileEditOnContent path old new c := by
    intro c
    simp [fileEditExecute, hv]
  have herr : ∀ m : String,
      fileEditExecute path old new (Except.error m) =
        ({ success := false, output := "",
           error := some ("Failed to edit file: " ++ m),
           is_validation_error := false }, none) := by
    intro m
    simp [fileEditExecute, hv]
  have hcontent : ∀ c : String,
      (fileEditOnContent path old new c).1.success =
          (pyCount c old = 1 : Bool) ∧
        (fileEditOnContent path old new c).2 =
          (if pyCount c old = 1
            then some (pyReplaceFirst c old new) else none) := by
    intro c
    by_cases h0 : pyContains c old = true
    · have hne : pyCount c old ≠ 0 := by
        simpa [pyContains] using h0
      by_cases h1 : 1 < pyCount c old
      · rw [fileEditOnContent, if_neg (by simp [h0]), if_pos h1]
        constructor
        · simp
          omega
        · rw [if_neg (by omega)]
      · have hone : pyCount c old = 1 := by omega
        rw [fileEditOnContent, if_neg (by simp [h0]), if_neg h1]
        constructor
        · simp [hone]
        · rw [if_pos hone]
    · have hz : pyCount c old = 0 := by
        by_contra hcon
        exact h0 (by simpa [pyContains] using hcon)
      rw [fileEditOnContent, if_pos (by simp [h0])]
      constructor
      · simp
        omega
      · rw [if_neg (by omega)]
  refine ⟨?_, ?_, ?_⟩
  · rw [hok]
    obtain ⟨h1, _⟩ := hcontent content
    rw [h1]
    simp
  · rw [hok]
    exact (hcontent content).2
  · intro fo hfail
    cases fo with
    | error m => rw [herr]
    | ok c =>
        rw [hok] at hfail ⊢
        obtain ⟨h1, h2⟩ := hcontent c
        rw [h1] at hfail
        rw [h2]
        rw [if_neg ?_]
        simp at hfail
        exact hfail

/-- Witness for C10 on `"wxz"`: `"x"` occurs once, the edit succeeds and
writes `"wyz"`; at the same path a file containing `"xx"` makes the count
ambiguous and nothing is written. -/
theorem fileEdit_exactly_once_witness :
    ((fileEditExecute "/workspace/out/a.py" "x" "y"
        (Except.ok "wxz")).1.success = true ↔
          pyCount "wxz" "x" = 1) ∧
      (fileEditExecute "/workspace/out/a.py" "x" "y"
          (Except.ok "wxz")).2 =
        (if pyCount "wxz" "x" = 1
          then some (pyReplaceFirst "wxz" "x" "y") else none) ∧
      ∀ fo : Except String String,
        (fileEditExecute "/workspace/out/a.py" "x" "y" fo).1.success =
            false →
          (fileEditExecute "/workspace/out/a.py" "x" "y" fo).2 = none :=
  fileEdit_exactly_once "/workspace/out/a.py" "x" "y" "wxz" (by decide)

end OpenCodexGui
